import Mathlib

/-!
Verification of the distributed sampling driver `DiT/sample_ddp.py`.

The development shallowly embeds the arithmetic and control flow of `main`
(and of `create_npz_from_sample_folder`) as executable Lean definitions:

* `Args` mirrors the command-line configuration fields the claims depend on;
* `global_batch_size`, `total_samples`, `samples_needed_this_gpu`,
  `iterations` mirror the workload-planning block (lines 150-161);
* `seed` mirrors the per-rank seed derivation (line 69);
* `emitIndex` mirrors the global index computed when saving samples
  (line 218, with `total` accumulating `global_batch_size` per iteration);
* the batch preparation / postprocessing pipeline mirrors lines 173-213;
* the event trace `mainTrace` mirrors the coordination structure of `main`
  (process-group init, barriers, the strategy dispatch that may raise
  `NotImplementedError`, and the final archive step).

Tensors are abstracted by lists over an arbitrary payload type; the sampler
and the decoder are opaque length-preserving functions, exactly as the spec
treats them.
-/

namespace SampleDDP

/-- The configuration fields of `sample_ddp.py` that the verified claims
depend on.  `world_size` is what `dist.get_world_size()` reports,
`global_seed` is `--global-seed`, `cfg_scale` is `--cfg-scale` (a float in
the source, embedded as a rational), `p_sample` / `ddim_sample` are the two
strategy flags, and `save_to_disk` selects the disk sink. -/
structure Args where
  num_fid_samples : Nat
  per_proc_batch_size : Nat
  world_size : Nat
  global_seed : Int
  cfg_scale : ℚ
  p_sample : Bool
  ddim_sample : Bool
  save_to_disk : Bool
  deriving Repr, DecidableEq

/-- Ceiling division on naturals: `math.ceil(a / b)` for nonnegative
integers `a` and positive `b`. -/
def ceil_div (a b : Nat) : Nat := (a + b - 1) / b

/-- `global_batch_size = n * dist.get_world_size()` (line 151). -/
def global_batch_size (a : Args) : Nat :=
  a.per_proc_batch_size * a.world_size

/-- `total_samples = int(math.ceil(args.num_fid_samples / global_batch_size)
 * global_batch_size)` (line 153): the requested count rounded up to a
multiple of the global batch. -/
def total_samples (a : Args) : Nat :=
  ceil_div a.num_fid_samples (global_batch_size a) * global_batch_size a

/-- `samples_needed_this_gpu = int(total_samples // dist.get_world_size())`
(line 159). -/
def samples_needed_this_gpu (a : Args) : Nat :=
  total_samples a / a.world_size

/-- `iterations = int(samples_needed_this_gpu // n)` (line 161). -/
def iterations (a : Args) : Nat :=
  samples_needed_this_gpu a / a.per_proc_batch_size

/-- `seed = args.global_seed * dist.get_world_size() + rank` (line 69). -/
def seed (a : Args) (rank : Nat) : Int :=
  a.global_seed * a.world_size + rank

/-- The global index assigned to the item at local position `i` of
iteration `it` on worker `rank`:
`index = i * dist.get_world_size() + rank + total` (line 218), where
`total` has accumulated `global_batch_size` once per completed iteration
(line 228), i.e. `total = it * global_batch_size`. -/
def emitIndex (a : Args) (it rank i : Nat) : Nat :=
  i * a.world_size + rank + it * global_batch_size a

/-- The list of global indices assigned at EMIT over one full run, in
production order: iteration-major, then rank, then local position within
the per-worker batch (the loop at lines 168-230 runs `iterations` times;
within an iteration every rank emits its `n` items). -/
def allIndices (a : Args) : List Nat :=
  (List.range (iterations a)).flatMap fun it =>
    (List.range a.world_size).flatMap fun r =>
      (List.range a.per_proc_batch_size).map fun i => emitIndex a it r i

/-- Scenario A of the spec: total_requested=100, per_worker_batch=10,
world_size=4 (the remaining fields are irrelevant to the planner). -/
def scenarioA : Args :=
  { num_fid_samples := 100, per_proc_batch_size := 10, world_size := 4,
    global_seed := 0, cfg_scale := 3/2, p_sample := true,
    ddim_sample := false, save_to_disk := false }

/-- A small configuration used to evaluate the run-level definitions
concretely: 3 requested samples, per-worker batch 2, world size 2
(padded total 4, one iteration). -/
def smallCfg : Args :=
  { num_fid_samples := 3, per_proc_batch_size := 2, world_size := 2,
    global_seed := 0, cfg_scale := 1, p_sample := true,
    ddim_sample := false, save_to_disk := false }

/-- Gather-strategy in-memory collection (lines 221-227, 240): each
iteration, `dist.all_gather` delivers every rank's batch in rank order and
rank 0 extends `all_images`; `np.concatenate` then flattens, so the
aggregate lists payloads iteration-major, then rank-major, then by local
position.  `payload it r i` is the (opaque) decoded sample produced at
iteration `it` by rank `r` at local position `i`. -/
def all_images {α : Type} (a : Args) (payload : Nat → Nat → Nat → α) :
    List α :=
  (List.range (iterations a)).flatMap fun it =>
    (List.range a.world_size).flatMap fun r =>
      (List.range a.per_proc_batch_size).map fun i => payload it r i

/-- Gather-strategy archive (lines 240-241):
`arr = np.concatenate(all_images, axis=0)[: args.num_fid_samples]`. -/
def gather_archive {α : Type} (a : Args) (payload : Nat → Nat → Nat → α) :
    List α :=
  (all_images a payload).take a.num_fid_samples

/-- Disk-strategy writes (lines 216-220): every worker saves each sample
to the file named by its zero-padded global index.  Listed in production
order as (index, payload) pairs. -/
def disk_writes {α : Type} (a : Args) (payload : Nat → Nat → Nat → α) :
    List (Nat × α) :=
  (List.range (iterations a)).flatMap fun it =>
    (List.range a.world_size).flatMap fun r =>
      (List.range a.per_proc_batch_size).map fun i =>
        (emitIndex a it r i, payload it r i)

/-- Opening the sample file named `k`: the payload written under index
`k`, if any. -/
def file_at {α : Type} (writes : List (Nat × α)) (k : Nat) : Option α :=
  (writes.find? fun p => p.1 == k).map Prod.snd

/-- Disk-strategy archive (`create_npz_from_sample_folder`, lines 29-43):
reads back the files named `0 .. num_fid_samples - 1` in ascending name
order and stacks them. -/
def disk_archive {α : Type} (a : Args) (payload : Nat → Nat → Nat → α) :
    List (Option α) :=
  (List.range a.num_fid_samples).map (file_at (disk_writes a payload))

/-- `using_cfg = args.cfg_scale > 1.0` (line 129). -/
def using_cfg (a : Args) : Bool := a.cfg_scale > 1

/-- The two model entry points a sampler can be handed. -/
inductive ModelFn
  | forward
  | forward_with_cfg
  deriving Repr, DecidableEq

/-- PREPARE (lines 178-181): the label batch handed to the sampler.
`y0` are the `n` freshly drawn labels; under guidance the batch is doubled
by appending `y_null = [1000] * n` (line 180). -/
def prepared_y (a : Args) (y0 : List Int) : List Int :=
  if using_cfg a then y0 ++ List.replicate a.per_proc_batch_size 1000 else y0

/-- PREPARE (lines 173, 179): the noise batch; under guidance
`z = torch.cat([z, z], 0)`. -/
def prepared_z {α : Type} (a : Args) (z0 : List α) : List α :=
  if using_cfg a then z0 ++ z0 else z0

/-- Lines 183, 186: the function bound to `sample_fn`. -/
def sample_fn (a : Args) : ModelFn :=
  if using_cfg a then ModelFn.forward_with_cfg else ModelFn.forward

/-- POSTPROCESS (lines 209-210): under guidance,
`samples, _ = samples.chunk(2, dim=0)` keeps the first chunk (the first
⌈len/2⌉ items); without guidance the output is untouched. -/
def postprocess {α : Type} (a : Args) (samples : List α) : List α :=
  if using_cfg a then samples.take ((samples.length + 1) / 2) else samples

/-- The two sampling strategies of the dispatch at lines 192-207. -/
inductive Strategy
  | p_sample_loop
  | ddim_sample_loop
  deriving Repr, DecidableEq

/-- The if/elif chain at lines 192-207: `args.p_sample` wins, else
`args.ddim_sample`, else `raise NotImplementedError`. -/
def selected_strategy (a : Args) : Option Strategy :=
  if a.p_sample then some Strategy.p_sample_loop
  else if a.ddim_sample then some Strategy.ddim_sample_loop
  else none

/-- The model function actually passed to the sampler: `sample_fn` for
`diffusion.p_sample_loop` (line 194), but literally
`model.forward_with_cfg` for `diffusion.ddim_sample_loop` (line 204);
`none` when no strategy is selected. -/
def invoked_model_fn (a : Args) : Option ModelFn :=
  match selected_strategy a with
  | some Strategy.p_sample_loop => some (sample_fn a)
  | some Strategy.ddim_sample_loop => some ModelFn.forward_with_cfg
  | none => none

/-- Coordination-relevant events of one run of `main`.  The planner's
divisibility assertions (lines 158, 160) are omitted: they hold for every
configuration with positive batch size and world size. -/
inductive Event
  | init_process_group
  | barrier
  | emit (iteration : Nat)
  | fatal_no_strategy
  | build_archive
  | destroy_process_group
  deriving Repr, DecidableEq

/-- One sampling-loop iteration (lines 168-230): the strategy dispatch
either samples and emits the batch, followed by the in-loop barrier
(line 230), or raises `NotImplementedError` (line 207). -/
def iter_events (a : Args) (it : Nat) : Option (List Event) :=
  match selected_strategy a with
  | some _ => some [Event.emit it, Event.barrier]
  | none => none

/-- The sampling loop, run for `k` iterations in order: accumulated events
plus whether the loop completed without an exception.  A raised exception
aborts the remaining iterations. -/
def loop_events (a : Args) : Nat → List Event × Bool
  | 0 => ([], true)
  | k + 1 =>
      if (loop_events a k).2 then
        match iter_events a k with
        | some es => ((loop_events a k).1 ++ es, true)
        | none => ((loop_events a k).1 ++ [Event.fatal_no_strategy], false)
      else loop_events a k

/-- The coordination trace of `main`: `dist.init_process_group` (line 66),
the setup barrier (line 147), the sampling loop, then — only if no
exception escaped the loop — the final barrier (line 233), the rank-0
archive build (lines 234-246), the last barrier (line 247) and the
process-group teardown (line 248). -/
def mainTrace (a : Args) : List Event :=
  [Event.init_process_group, Event.barrier] ++
    (if (loop_events a (iterations a)).2 then
      (loop_events a (iterations a)).1 ++
        [Event.barrier, Event.build_archive, Event.barrier,
          Event.destroy_process_group]
    else (loop_events a (iterations a)).1)

/-- Counterexample configuration for archive-order claims: 2 requested
samples, per-worker batch 2, world size 2, gather sink. -/
def gatherCex : Args :=
  { num_fid_samples := 2, per_proc_batch_size := 2, world_size := 2,
    global_seed := 0, cfg_scale := 1, p_sample := true,
    ddim_sample := false, save_to_disk := false }

/-- A configuration with no sampling strategy selected and one planned
iteration. -/
def noStrategyCfg : Args :=
  { num_fid_samples := 1, per_proc_batch_size := 1, world_size := 1,
    global_seed := 0, cfg_scale := 1, p_sample := false,
    ddim_sample := false, save_to_disk := false }

/-- A second no-strategy configuration (two workers, two iterations). -/
def noStrategyCfg2 : Args :=
  { num_fid_samples := 4, per_proc_batch_size := 1, world_size := 2,
    global_seed := 0, cfg_scale := 1, p_sample := false,
    ddim_sample := false, save_to_disk := false }

/-- A configuration with no strategy selected but zero requested samples,
hence zero loop iterations. -/
def zeroIterCfg : Args :=
  { num_fid_samples := 0, per_proc_batch_size := 1, world_size := 1,
    global_seed := 0, cfg_scale := 1, p_sample := false,
    ddim_sample := false, save_to_disk := false }

/-- A configuration with both strategy flags set. -/
def bothStrategiesCfg : Args :=
  { num_fid_samples := 2, per_proc_batch_size := 1, world_size := 2,
    global_seed := 0, cfg_scale := 1, p_sample := true,
    ddim_sample := true, save_to_disk := false }

/-- A ddim configuration with guidance disabled (cfg_scale = 1.0). -/
def ddimNoGuidanceCfg : Args :=
  { num_fid_samples := 2, per_proc_batch_size := 1, world_size := 2,
    global_seed := 0, cfg_scale := 1, p_sample := false,
    ddim_sample := true, save_to_disk := false }

/-- A guidance-enabled configuration (cfg_scale = 1.5, batch 2). -/
def guidanceCfg : Args :=
  { num_fid_samples := 4, per_proc_batch_size := 2, world_size := 1,
    global_seed := 0, cfg_scale := 3/2, p_sample := true,
    ddim_sample := false, save_to_disk := false }

section PlannerLemmas

lemma ceil_div_eq_ceilDiv (a b : Nat) : ceil_div a b = a ⌈/⌉ b := rfl

lemma ceil_div_le (a b : Nat) (hb : 1 ≤ b) : a ≤ ceil_div a b * b := by
  rw [ceil_div_eq_ceilDiv, Nat.mul_comm]
  have h := le_smul_ceilDiv (b := a) (Nat.lt_of_lt_of_le Nat.zero_lt_one hb)
  simpa [smul_eq_mul] using h

lemma ceil_div_lt (a b : Nat) (hb : 1 ≤ b) : ceil_div a b * b < a + b := by
  unfold ceil_div
  have h := Nat.div_mul_le_self (a + b - 1) b
  omega

lemma ceil_div_min (a b m : Nat) (hb : 1 ≤ b) (hm : b ∣ m) (ham : a ≤ m) :
    ceil_div a b * b ≤ m := by
  obtain ⟨k, rfl⟩ := hm
  rw [ceil_div_eq_ceilDiv]
  have hk : a ⌈/⌉ b ≤ k :=
    (ceilDiv_le_iff_le_mul (Nat.lt_of_lt_of_le Nat.zero_lt_one hb)).2 ham
  calc a ⌈/⌉ b * b ≤ k * b := Nat.mul_le_mul_right b hk
    _ = b * k := Nat.mul_comm k b

end PlannerLemmas

section IndexLemmas

/-- Uniqueness of Euclidean division: quotient extraction. -/
lemma eucl_div (b q r : Nat) (hr : r < b) : (q * b + r) / b = q := by
  have hb : 0 < b := Nat.lt_of_le_of_lt (Nat.zero_le r) hr
  have h : q * b + r = r + b * q := by ring
  rw [h, Nat.add_mul_div_left _ _ hb, Nat.div_eq_of_lt hr, Nat.zero_add]

/-- Uniqueness of Euclidean division: remainder extraction. -/
lemma eucl_mod (b q r : Nat) (hr : r < b) : (q * b + r) % b = r := by
  have h : q * b + r = r + b * q := by ring
  rw [h, Nat.add_mul_mod_self_left, Nat.mod_eq_of_lt hr]

/-- Uniqueness of Euclidean division, combined form. -/
lemma eucl_unique (b q₁ r₁ q₂ r₂ : Nat) (h₁ : r₁ < b) (h₂ : r₂ < b)
    (he : q₁ * b + r₁ = q₂ * b + r₂) : q₁ = q₂ ∧ r₁ = r₂ := by
  constructor
  · have := congrArg (· / b) he
    simpa [eucl_div b q₁ r₁ h₁, eucl_div b q₂ r₂ h₂] using this
  · have := congrArg (· % b) he
    simpa [eucl_mod b q₁ r₁ h₁, eucl_mod b q₂ r₂ h₂] using this

/-- A flatMap of maps over ranges is a single map over the product range,
indexed by Euclidean decomposition. -/
lemma range_flatMap_map {β : Type} (W N : Nat) (g : Nat → Nat → β) :
    ((List.range W).flatMap fun r => (List.range N).map fun i => g r i)
      = (List.range (W * N)).map fun q => g (q / N) (q % N) := by
  induction W with
  | zero => simp
  | succ w ih =>
      rw [List.range_succ, List.flatMap_append, ih, Nat.succ_mul,
        List.range_add, List.map_append, List.flatMap_singleton, List.map_map]
      congr 1
      apply List.map_congr_left
      intro i hi
      have hiN : i < N := List.mem_range.1 hi
      have hN : 0 < N := Nat.lt_of_le_of_lt (Nat.zero_le i) hiN
      have hd : (w * N + i) / N = w := eucl_div N w i hiN
      have hm : (w * N + i) % N = i := eucl_mod N w i hiN
      simp [Function.comp, hd, hm]

/-- The triple flatMap over (iteration, rank, position) is a single map
over the flat position range. -/
lemma triple_flatMap_eq {β : Type} (I W N : Nat) (f : Nat → Nat → Nat → β) :
    ((List.range I).flatMap fun it =>
        (List.range W).flatMap fun r => (List.range N).map fun i => f it r i)
      = (List.range (I * (W * N))).map fun p =>
          f (p / (W * N)) (p % (W * N) / N) (p % N) := by
  have h1 : ∀ it, ((List.range W).flatMap fun r =>
      (List.range N).map fun i => f it r i)
        = (List.range (W * N)).map fun q => f it (q / N) (q % N) :=
    fun it => range_flatMap_map W N (fun r i => f it r i)
  calc ((List.range I).flatMap fun it =>
          (List.range W).flatMap fun r => (List.range N).map fun i => f it r i)
      = (List.range I).flatMap fun it =>
          (List.range (W * N)).map fun q => f it (q / N) (q % N) := by
        apply List.flatMap_congr
        intro it _
        exact h1 it
    _ = (List.range (I * (W * N))).map fun p =>
          f (p / (W * N)) (p % (W * N) / N) (p % (W * N) % N) :=
        range_flatMap_map I (W * N) (fun it q => f it (q / N) (q % N))
    _ = _ := by
        apply List.map_congr_left
        intro p _
        have : p % (W * N) % N = p % N :=
          Nat.mod_mod_of_dvd p ⟨W, Nat.mul_comm W N⟩
        rw [this]

end IndexLemmas

section BijectionLemmas

lemma mul_comp_lt (i r n w : Nat) (hi : i < n) (hr : r < w) :
    i * w + r < n * w := by
  have h : (i + 1) * w ≤ n * w := Nat.mul_le_mul_right w hi
  calc i * w + r < i * w + w := by omega
    _ = (i + 1) * w := by ring
    _ ≤ n * w := h

lemma iterations_eq_ceil (a : Args)
    (hn : 1 ≤ a.per_proc_batch_size) (hw : 1 ≤ a.world_size) :
    iterations a = ceil_div a.num_fid_samples (global_batch_size a) := by
  unfold iterations samples_needed_this_gpu total_samples
  rw [show ceil_div a.num_fid_samples (global_batch_size a) *
      global_batch_size a =
      ceil_div a.num_fid_samples (global_batch_size a) *
        a.per_proc_batch_size * a.world_size from by
    unfold global_batch_size; ring]
  rw [Nat.mul_div_cancel _ (by omega : 0 < a.world_size),
    Nat.mul_div_cancel _ (by omega : 0 < a.per_proc_batch_size)]

lemma iterations_mul_gb (a : Args)
    (hn : 1 ≤ a.per_proc_batch_size) (hw : 1 ≤ a.world_size) :
    iterations a * global_batch_size a = total_samples a := by
  rw [iterations_eq_ceil a hn hw]
  rfl

/-- Flattened form of `allIndices`: the index emitted at flat production
position `p` (iteration `p / global_batch`, rank
`(p % global_batch) / per_worker_batch`, local position
`p % per_worker_batch`). -/
lemma allIndices_eq (a : Args)
    (hn : 1 ≤ a.per_proc_batch_size) (hw : 1 ≤ a.world_size) :
    allIndices a = (List.range (total_samples a)).map fun p =>
      emitIndex a (p / global_batch_size a)
        (p % global_batch_size a / a.per_proc_batch_size)
        (p % a.per_proc_batch_size) := by
  unfold allIndices
  rw [triple_flatMap_eq]
  have hc : a.world_size * a.per_proc_batch_size = global_batch_size a := by
    unfold global_batch_size; ring
  simp only [hc, iterations_mul_gb a hn hw]

lemma emitIndex_lt (a : Args)
    (hn : 1 ≤ a.per_proc_batch_size) (hw : 1 ≤ a.world_size)
    (it r i : Nat) (hit : it < iterations a) (hr : r < a.world_size)
    (hi : i < a.per_proc_batch_size) :
    emitIndex a it r i < total_samples a := by
  have h1 : i * a.world_size + r < global_batch_size a :=
    mul_comp_lt i r a.per_proc_batch_size a.world_size hi hr
  have h2 : emitIndex a it r i = it * global_batch_size a +
      (i * a.world_size + r) := by
    unfold emitIndex; ring
  have h3 : (it + 1) * global_batch_size a ≤
      iterations a * global_batch_size a :=
    Nat.mul_le_mul_right _ hit
  calc emitIndex a it r i < it * global_batch_size a + global_batch_size a := by
        omega
    _ = (it + 1) * global_batch_size a := by ring
    _ ≤ iterations a * global_batch_size a := h3
    _ = total_samples a := iterations_mul_gb a hn hw

/-- The value produced at flat position `p` by the mixed-radix map
`p ↦ (p % n) * w + (p % (n*w)) / n + (p / (n*w)) * (n*w)` is injective. -/
lemma posmap_inj (n w p₁ p₂ : Nat) (hn0 : 0 < n) (hw0 : 0 < w)
    (he : p₁ % n * w + p₁ % (n * w) / n + p₁ / (n * w) * (n * w)
        = p₂ % n * w + p₂ % (n * w) / n + p₂ / (n * w) * (n * w)) :
    p₁ = p₂ := by
  have hgb0 : 0 < n * w := Nat.mul_pos hn0 hw0
  have hq₁ : p₁ % (n * w) < n * w := Nat.mod_lt _ hgb0
  have hq₂ : p₂ % (n * w) < n * w := Nat.mod_lt _ hgb0
  have hr₁ : p₁ % (n * w) / n < w :=
    (Nat.div_lt_iff_lt_mul hn0).2 (by rw [Nat.mul_comm w n]; exact hq₁)
  have hr₂ : p₂ % (n * w) / n < w :=
    (Nat.div_lt_iff_lt_mul hn0).2 (by rw [Nat.mul_comm w n]; exact hq₂)
  have hi₁ : p₁ % n < n := Nat.mod_lt _ hn0
  have hi₂ : p₂ % n < n := Nat.mod_lt _ hn0
  have ht₁ : p₁ % n * w + p₁ % (n * w) / n < n * w :=
    mul_comp_lt _ _ _ _ hi₁ hr₁
  have ht₂ : p₂ % n * w + p₂ % (n * w) / n < n * w :=
    mul_comp_lt _ _ _ _ hi₂ hr₂
  have he' : p₁ / (n * w) * (n * w) + (p₁ % n * w + p₁ % (n * w) / n)
      = p₂ / (n * w) * (n * w) + (p₂ % n * w + p₂ % (n * w) / n) := by
    omega
  obtain ⟨hq, ht⟩ := eucl_unique (n * w) _ _ _ _ ht₁ ht₂ he'
  obtain ⟨hi, hr⟩ := eucl_unique w _ _ _ _ hr₁ hr₂ ht
  have hmm₁ : p₁ % (n * w) % n = p₁ % n :=
    Nat.mod_mod_of_dvd p₁ ⟨w, rfl⟩
  have hmm₂ : p₂ % (n * w) % n = p₂ % n :=
    Nat.mod_mod_of_dvd p₂ ⟨w, rfl⟩
  have hrec₁ := Nat.div_add_mod (p₁ % (n * w)) n
  have hrec₂ := Nat.div_add_mod (p₂ % (n * w)) n
  rw [hr, hmm₁, hi, ← hmm₂] at hrec₁
  have hqq : p₁ % (n * w) = p₂ % (n * w) := by omega
  have hd₁ := Nat.div_add_mod p₁ (n * w)
  have hd₂ := Nat.div_add_mod p₂ (n * w)
  rw [hq, hqq] at hd₁
  omega

/-- Surjectivity of the mixed-radix map: every target index `x` is hit
from a flat position `p` inside the same global batch as `x`. -/
lemma posmap_surj (n w x : Nat) (hn0 : 0 < n) (hw0 : 0 < w) :
    ∃ p, p < (x / (n * w) + 1) * (n * w) ∧
      p % n * w + p % (n * w) / n + p / (n * w) * (n * w) = x := by
  have hgb0 : 0 < n * w := Nat.mul_pos hn0 hw0
  have hq' : x % (n * w) < n * w := Nat.mod_lt _ hgb0
  have hr : x % (n * w) % w < w := Nat.mod_lt _ hw0
  have hi' : x % (n * w) / w < n := (Nat.div_lt_iff_lt_mul hw0).2 hq'
  have hs_lt : x % (n * w) % w * n + x % (n * w) / w < n * w := by
    have hlt := mul_comp_lt (x % (n * w) % w) (x % (n * w) / w) w n hr hi'
    rw [Nat.mul_comm w n] at hlt
    exact hlt
  refine ⟨x / (n * w) * (n * w) +
    (x % (n * w) % w * n + x % (n * w) / w), ?_, ?_⟩
  · have hexp : (x / (n * w) + 1) * (n * w)
        = x / (n * w) * (n * w) + n * w := by ring
    omega
  · have hdiv : (x / (n * w) * (n * w) +
        (x % (n * w) % w * n + x % (n * w) / w)) / (n * w) = x / (n * w) :=
      eucl_div _ _ _ hs_lt
    have hmod : (x / (n * w) * (n * w) +
        (x % (n * w) % w * n + x % (n * w) / w)) % (n * w)
        = x % (n * w) % w * n + x % (n * w) / w :=
      eucl_mod _ _ _ hs_lt
    have hmodn : (x / (n * w) * (n * w) +
        (x % (n * w) % w * n + x % (n * w) / w)) % n
        = x % (n * w) / w := by
      rw [← Nat.mod_mod_of_dvd _ (⟨w, rfl⟩ : n ∣ n * w), hmod]
      exact eucl_mod n _ _ hi'
    have hsd : (x % (n * w) % w * n + x % (n * w) / w) / n
        = x % (n * w) % w :=
      eucl_div n _ _ hi'
    rw [hdiv, hmod, hmodn, hsd]
    have h1 := Nat.div_add_mod (x % (n * w)) w
    have h2 := Nat.div_add_mod x (n * w)
    calc x % (n * w) / w * w + x % (n * w) % w + x / (n * w) * (n * w)
        = w * (x % (n * w) / w) + x % (n * w) % w +
            (n * w) * (x / (n * w)) := by ring
      _ = x := by omega

/-- `emitIndex` at the decoded production position, rewritten as the
mixed-radix map of `posmap_inj`/`posmap_surj`. -/
lemma emitIndex_decode (a : Args) (p : Nat) :
    emitIndex a (p / global_batch_size a)
      (p % global_batch_size a / a.per_proc_batch_size)
      (p % a.per_proc_batch_size)
    = p % a.per_proc_batch_size * a.world_size +
      p % (a.per_proc_batch_size * a.world_size) / a.per_proc_batch_size +
      p / (a.per_proc_batch_size * a.world_size) *
        (a.per_proc_batch_size * a.world_size) := by
  unfold emitIndex global_batch_size
  ring

end BijectionLemmas

end SampleDDP

open SampleDDP

/-- C2: the workload planner is a pure function of the configuration
computing `global_batch = per_worker_batch * world_size`, `padded_total` =
the smallest multiple of `global_batch` that is ≥ `total_requested`,
`per_worker_share = padded_total / world_size`, and
`iterations = per_worker_share / per_worker_batch`; on Scenario A
(total_requested=100, per_worker_batch=10, world_size=4) it yields
global_batch=40, padded_total=120, per_worker_share=30, iterations=3. -/
theorem planner_formulas (a : Args)
    (hn : 1 ≤ a.per_proc_batch_size) (hw : 1 ≤ a.world_size) :
    global_batch_size a = a.per_proc_batch_size * a.world_size ∧
    (global_batch_size a ∣ total_samples a ∧
      a.num_fid_samples ≤ total_samples a ∧
      ∀ m, global_batch_size a ∣ m → a.num_fid_samples ≤ m →
        total_samples a ≤ m) ∧
    samples_needed_this_gpu a = total_samples a / a.world_size ∧
    iterations a = samples_needed_this_gpu a / a.per_proc_batch_size ∧
    (global_batch_size scenarioA = 40 ∧ total_samples scenarioA = 120 ∧
      samples_needed_this_gpu scenarioA = 30 ∧ iterations scenarioA = 3) := by
  have hgb : 1 ≤ global_batch_size a := Nat.one_le_iff_ne_zero.2 (by
    have := Nat.mul_le_mul hn hw
    unfold global_batch_size
    omega)
  refine ⟨rfl, ⟨⟨ceil_div a.num_fid_samples (global_batch_size a), Nat.mul_comm _ _⟩,
    ceil_div_le _ _ hgb, fun m hm hle => ceil_div_min _ _ m hgb hm hle⟩,
    rfl, rfl, by decide⟩

/-- Witness for `planner_formulas` at Scenario A. -/
theorem planner_formulas_witness :
    global_batch_size scenarioA = 40 ∧ total_samples scenarioA = 120 ∧
      samples_needed_this_gpu scenarioA = 30 ∧ iterations scenarioA = 3 :=
  (planner_formulas scenarioA (by decide) (by decide)).2.2.2.2

/-- C4: for every valid configuration (positive per-worker batch and world
size) the divisibility assertions after planning hold:
`total_samples % world_size == 0` and
`samples_needed_this_gpu % per_proc_batch_size == 0`, so the corresponding
assertion-failure branches are unreachable. -/
theorem planner_assertions_hold (a : Args)
    (hn : 1 ≤ a.per_proc_batch_size) (hw : 1 ≤ a.world_size) :
    total_samples a % a.world_size = 0 ∧
    samples_needed_this_gpu a % a.per_proc_batch_size = 0 := by
  have h1 : total_samples a =
      ceil_div a.num_fid_samples (global_batch_size a) *
        a.per_proc_batch_size * a.world_size := by
    unfold total_samples global_batch_size
    ring
  constructor
  · rw [h1]
    exact Nat.mul_mod_left _ _
  · unfold samples_needed_this_gpu
    rw [h1, Nat.mul_div_cancel _ (by omega : 0 < a.world_size),
      Nat.mul_mod_left]

/-- Witness for `planner_assertions_hold` at Scenario A. -/
theorem planner_assertions_hold_witness :
    total_samples scenarioA % scenarioA.world_size = 0 ∧
    samples_needed_this_gpu scenarioA % scenarioA.per_proc_batch_size = 0 :=
  planner_assertions_hold scenarioA (by decide) (by decide)

/-- C5: for every nonnegative requested total and positive global batch,
the padded total satisfies `total_samples ≥ num_fid_samples` and
`total_samples - num_fid_samples < global_batch_size`: padding is
upward-only and bounded by one global batch. -/
theorem padding_bounds (a : Args)
    (hn : 1 ≤ a.per_proc_batch_size) (hw : 1 ≤ a.world_size) :
    a.num_fid_samples ≤ total_samples a ∧
    total_samples a - a.num_fid_samples < global_batch_size a := by
  have hgb : 1 ≤ global_batch_size a := by
    have := Nat.mul_le_mul hn hw
    unfold global_batch_size
    omega
  have h1 := ceil_div_le a.num_fid_samples (global_batch_size a) hgb
  have h2 := ceil_div_lt a.num_fid_samples (global_batch_size a) hgb
  unfold total_samples
  omega

/-- Witness for `padding_bounds` at Scenario A. -/
theorem padding_bounds_witness :
    scenarioA.num_fid_samples ≤ total_samples scenarioA ∧
    total_samples scenarioA - scenarioA.num_fid_samples <
      global_batch_size scenarioA :=
  padding_bounds scenarioA (by decide) (by decide)

/-- C8: the worker seed is derived exactly as
`global_seed * world_size + rank`, a pure function of
(base seed, world size, rank); distinct ranks in the same run receive
distinct seeds. -/
theorem seed_derivation (a : Args) :
    (∀ rank : Nat, seed a rank = a.global_seed * a.world_size + rank) ∧
    (∀ r1 r2 : Nat, r1 < a.world_size → r2 < a.world_size → r1 ≠ r2 →
      seed a r1 ≠ seed a r2) := by
  refine ⟨fun _ => rfl, fun r1 r2 _ _ hne heq => hne ?_⟩
  unfold seed at heq
  omega

/-- Witness for `seed_derivation` at Scenario A, ranks 0 and 1. -/
theorem seed_derivation_witness :
    seed scenarioA 0 = scenarioA.global_seed * scenarioA.world_size + 0 ∧
    seed scenarioA 0 ≠ seed scenarioA 1 :=
  ⟨(seed_derivation scenarioA).1 0,
    (seed_derivation scenarioA).2 0 1 (by decide) (by decide) (by decide)⟩

/-- Bounds of the decoded (iteration, rank, position) components of a flat
production position `p < total_samples`. -/
lemma decode_bounds (a : Args)
    (hn : 1 ≤ a.per_proc_batch_size) (hw : 1 ≤ a.world_size)
    (p : Nat) (hp : p < total_samples a) :
    p / global_batch_size a < iterations a ∧
    p % global_batch_size a / a.per_proc_batch_size < a.world_size ∧
    p % a.per_proc_batch_size < a.per_proc_batch_size := by
  have hn0 : 0 < a.per_proc_batch_size := hn
  have hw0 : 0 < a.world_size := hw
  have hgb0 : 0 < global_batch_size a := Nat.mul_pos hn0 hw0
  refine ⟨?_, ?_, Nat.mod_lt _ hn0⟩
  · exact (Nat.div_lt_iff_lt_mul hgb0).2 (by
      rw [iterations_mul_gb a hn hw]; exact hp)
  · apply (Nat.div_lt_iff_lt_mul hn0).2
    have h := Nat.mod_lt p hgb0
    have hc : global_batch_size a =
        a.world_size * a.per_proc_batch_size := Nat.mul_comm _ _
    omega

/-- The emitted global indices are pairwise distinct. -/
lemma allIndices_nodup (a : Args)
    (hn : 1 ≤ a.per_proc_batch_size) (hw : 1 ≤ a.world_size) :
    (allIndices a).Nodup := by
  have hn0 : 0 < a.per_proc_batch_size := hn
  have hw0 : 0 < a.world_size := hw
  rw [allIndices_eq a hn hw]
  apply List.Nodup.map_on _ (List.nodup_range _)
  intro p₁ _ p₂ _ he
  rw [emitIndex_decode, emitIndex_decode] at he
  exact posmap_inj a.per_proc_batch_size a.world_size p₁ p₂ hn0 hw0 he

/-- A value is an emitted global index exactly when it lies below the
padded total. -/
lemma mem_allIndices (a : Args)
    (hn : 1 ≤ a.per_proc_batch_size) (hw : 1 ≤ a.world_size) (x : Nat) :
    x ∈ allIndices a ↔ x < total_samples a := by
  have hn0 : 0 < a.per_proc_batch_size := hn
  have hw0 : 0 < a.world_size := hw
  have hgb0 : 0 < global_batch_size a := Nat.mul_pos hn0 hw0
  rw [allIndices_eq a hn hw]
  simp only [List.mem_map, List.mem_range]
  constructor
  · rintro ⟨p, hp, rfl⟩
    obtain ⟨h1, h2, h3⟩ := decode_bounds a hn hw p hp
    exact emitIndex_lt a hn hw _ _ _ h1 h2 h3
  · intro hx
    obtain ⟨p, hplt, hpe⟩ :=
      posmap_surj a.per_proc_batch_size a.world_size x hn0 hw0
    refine ⟨p, ?_, ?_⟩
    · have hxd : x / global_batch_size a < iterations a :=
        (Nat.div_lt_iff_lt_mul hgb0).2 (by
          rw [iterations_mul_gb a hn hw]; exact hx)
      have hle : (x / global_batch_size a + 1) * global_batch_size a ≤
          iterations a * global_batch_size a :=
        Nat.mul_le_mul_right _ hxd
      have htot := iterations_mul_gb a hn hw
      have hplt' : p < (x / global_batch_size a + 1) *
          global_batch_size a := hplt
      omega
    · rw [emitIndex_decode]
      exact hpe

/-- C1: over one full run, the multiset of global_index values assigned at
EMIT — `index = iteration * global_batch + local_position * world_size +
rank` for every iteration, rank, and local position — is exactly
`{0, 1, ..., padded_total - 1}`: a permutation of `List.range
total_samples`, hence no duplicates and no gaps. -/
theorem global_index_coverage (a : Args)
    (hn : 1 ≤ a.per_proc_batch_size) (hw : 1 ≤ a.world_size) :
    (allIndices a).Perm (List.range (total_samples a)) := by
  refine List.perm_of_nodup_nodup_toFinset_eq (allIndices_nodup a hn hw)
    (List.nodup_range _) ?_
  ext x
  simp only [List.mem_toFinset, mem_allIndices a hn hw, List.mem_range]

/-- Witness for `global_index_coverage`: on the small configuration
(world_size=2, per-worker batch 2, padded total 4) the emitted indices are
`[0, 2, 1, 3]`, a permutation of `range 4`. -/
theorem global_index_coverage_witness :
    allIndices smallCfg = [0, 2, 1, 3] ∧
    (allIndices smallCfg).Perm (List.range (total_samples smallCfg)) :=
  ⟨by decide, global_index_coverage smallCfg (by decide) (by decide)⟩

/-- Flattened form of the gather-mode aggregate: the payload at flat
position `p` was produced at iteration `p / global_batch`, by rank
`(p % global_batch) / per_worker_batch`, at local position
`p % per_worker_batch`. -/
lemma all_images_eq {α : Type} (a : Args)
    (hn : 1 ≤ a.per_proc_batch_size) (hw : 1 ≤ a.world_size)
    (payload : Nat → Nat → Nat → α) :
    all_images a payload = (List.range (total_samples a)).map fun p =>
      payload (p / global_batch_size a)
        (p % global_batch_size a / a.per_proc_batch_size)
        (p % a.per_proc_batch_size) := by
  unfold all_images
  rw [triple_flatMap_eq]
  have hc : a.world_size * a.per_proc_batch_size = global_batch_size a := by
    unfold global_batch_size; ring
  simp only [hc, iterations_mul_gb a hn hw]

/-- `find?` on an association list with pairwise-distinct keys returns the
unique stored pair for a present key. -/
lemma find?_eq_some_of_key {α : Type} (l : List (Nat × α)) (k : Nat) (v : α)
    (hnd : (l.map Prod.fst).Nodup) (hmem : (k, v) ∈ l) :
    (l.find? fun p => p.1 == k) = some (k, v) := by
  induction l with
  | nil => cases hmem
  | cons hd tl ih =>
      rw [List.map_cons, List.nodup_cons] at hnd
      obtain ⟨hnotin, hndtl⟩ := hnd
      by_cases hk : hd.1 = k
      · rw [List.find?_cons_of_pos _ (by simp [hk])]
        rcases List.mem_cons.1 hmem with heq | htl
        · rw [← heq]
        · exfalso
          rw [hk] at hnotin
          exact hnotin (List.mem_map_of_mem Prod.fst htl)
      · rw [List.find?_cons_of_neg _ (by simp [hk])]
        apply ih hndtl
        rcases List.mem_cons.1 hmem with heq | htl
        · exact absurd (congrArg Prod.fst heq.symm) hk
        · exact htl

/-- The file names written by the disk sink are exactly the emitted
global indices, in production order. -/
lemma disk_writes_fst {α : Type} (a : Args)
    (payload : Nat → Nat → Nat → α) :
    (disk_writes a payload).map Prod.fst = allIndices a := by
  unfold disk_writes allIndices
  simp [List.map_flatMap, List.map_map, Function.comp_def]

/-- Every produced (index, payload) pair is among the disk writes. -/
lemma mem_disk_writes {α : Type} (a : Args)
    (payload : Nat → Nat → Nat → α) (it r i : Nat)
    (hit : it < iterations a) (hr : r < a.world_size)
    (hi : i < a.per_proc_batch_size) :
    (emitIndex a it r i, payload it r i) ∈ disk_writes a payload := by
  unfold disk_writes
  simp only [List.mem_flatMap, List.mem_map, List.mem_range]
  exact ⟨it, hit, r, hr, i, hi, rfl⟩

/-- Decoding a global index `k < total_samples` into its producing
iteration, rank and local position. -/
lemma index_decode (a : Args)
    (hn : 1 ≤ a.per_proc_batch_size) (hw : 1 ≤ a.world_size)
    (k : Nat) (hk : k < total_samples a) :
    k / global_batch_size a < iterations a ∧
    k % global_batch_size a / a.world_size < a.per_proc_batch_size ∧
    k % global_batch_size a % a.world_size < a.world_size ∧
    emitIndex a (k / global_batch_size a)
      (k % global_batch_size a % a.world_size)
      (k % global_batch_size a / a.world_size) = k := by
  have hn0 : 0 < a.per_proc_batch_size := hn
  have hw0 : 0 < a.world_size := hw
  have hgb0 : 0 < global_batch_size a := Nat.mul_pos hn0 hw0
  refine ⟨?_, ?_, Nat.mod_lt _ hw0, ?_⟩
  · exact (Nat.div_lt_iff_lt_mul hgb0).2 (by
      rw [iterations_mul_gb a hn hw]; exact hk)
  · exact (Nat.div_lt_iff_lt_mul hw0).2 (Nat.mod_lt _ hgb0)
  · have h1 := Nat.div_add_mod (k % global_batch_size a) a.world_size
    have h2 := Nat.div_add_mod k (global_batch_size a)
    unfold emitIndex
    calc k % global_batch_size a / a.world_size * a.world_size +
          k % global_batch_size a % a.world_size +
          k / global_batch_size a * global_batch_size a
        = a.world_size * (k % global_batch_size a / a.world_size) +
            k % global_batch_size a % a.world_size +
            global_batch_size a * (k / global_batch_size a) := by ring
      _ = k := by omega

/-- C3 counterexample: on the gather strategy with world_size=2,
per_worker_batch=2, total_requested=2 and items labelled by their own
global_index, the final archive is `[0, 2]` — it contains the item with
global_index 2 ≥ total_requested and omits the item with global_index 1,
so the archive is not the ascending prefix of global indices. -/
theorem gather_archive_not_prefix :
    gather_archive gatherCex (emitIndex gatherCex) = [0, 2] ∧
    gatherCex.num_fid_samples = 2 ∧
    2 ∈ gather_archive gatherCex (emitIndex gatherCex) := by decide

/-- C3 (amended): both sink strategies produce a final archive with
exactly `total_requested` entries.  In the disk strategy, entry `k` is the
unique item whose global_index is `k`, so the archive lists the items with
global_index `0 .. total_requested - 1` in ascending order and no item
with global_index ≥ total_requested appears.  In the gather strategy, the
archive keeps the first `total_requested` items of the iteration-major,
rank-major concatenation: entry `p` is the item produced at iteration
`p / global_batch`, rank `(p % global_batch) / per_worker_batch`, local
position `p % per_worker_batch` — which is not, in general, the item with
global_index `p`. -/
theorem archive_truncation {α : Type} (a : Args)
    (payload : Nat → Nat → Nat → α)
    (hn : 1 ≤ a.per_proc_batch_size) (hw : 1 ≤ a.world_size) :
    (disk_archive a payload).length = a.num_fid_samples ∧
    (∀ k, k < a.num_fid_samples →
      ∃ it r i, it < iterations a ∧ r < a.world_size ∧
        i < a.per_proc_batch_size ∧ emitIndex a it r i = k ∧
        (disk_archive a payload)[k]? = some (some (payload it r i))) ∧
    (gather_archive a payload).length = a.num_fid_samples ∧
    (∀ p, p < a.num_fid_samples →
      (gather_archive a payload)[p]? =
        some (payload (p / global_batch_size a)
          (p % global_batch_size a / a.per_proc_batch_size)
          (p % a.per_proc_batch_size))) := by
  have hgb : 1 ≤ global_batch_size a :=
    Nat.one_le_iff_ne_zero.2 (Nat.pos_iff_ne_zero.1 (Nat.mul_pos hn hw))
  have hreq : a.num_fid_samples ≤ total_samples a :=
    ceil_div_le a.num_fid_samples (global_batch_size a) hgb
  refine ⟨?_, ?_, ?_, ?_⟩
  · simp [disk_archive]
  · intro k hk
    have hk' : k < total_samples a := Nat.lt_of_lt_of_le hk hreq
    obtain ⟨h1, h2, h3, h4⟩ := index_decode a hn hw k hk'
    refine ⟨k / global_batch_size a,
      k % global_batch_size a % a.world_size,
      k % global_batch_size a / a.world_size, h1, h3, h2, h4, ?_⟩
    have hmem := mem_disk_writes a payload _ _ _ h1 h3 h2
    rw [h4] at hmem
    have hnd : ((disk_writes a payload).map Prod.fst).Nodup := by
      rw [disk_writes_fst]
      exact allIndices_nodup a hn hw
    unfold disk_archive
    rw [List.getElem?_map]
    simp only [List.getElem?_range hk, Option.map_some']
    unfold file_at
    rw [find?_eq_some_of_key _ k _ hnd hmem]
    rfl
  · rw [gather_archive, List.length_take, all_images_eq a hn hw,
      List.length_map, List.length_range]
    omega
  · intro p hp
    rw [gather_archive, List.getElem?_take_of_lt hp,
      all_images_eq a hn hw, List.getElem?_map]
    simp [List.getElem?_range (Nat.lt_of_lt_of_le hp hreq)]

/-- Witness for `archive_truncation` at the small configuration: the disk
archive lists payloads in ascending index order, the gather archive in
production order. -/
theorem archive_truncation_witness :
    (disk_archive smallCfg (emitIndex smallCfg)).length =
      smallCfg.num_fid_samples ∧
    (gather_archive smallCfg (emitIndex smallCfg)).length =
      smallCfg.num_fid_samples :=
  ⟨(archive_truncation smallCfg (emitIndex smallCfg)
      (by decide) (by decide)).1,
    (archive_truncation smallCfg (emitIndex smallCfg)
      (by decide) (by decide)).2.2.1⟩

/-- With a strategy selected, an iteration emits its batch and hits the
in-loop barrier. -/
lemma iter_events_some (a : Args) (hs : selected_strategy a ≠ none)
    (it : Nat) :
    iter_events a it = some [Event.emit it, Event.barrier] := by
  cases h : selected_strategy a with
  | none => exact absurd h hs
  | some s => unfold iter_events; rw [h]

/-- With no strategy selected, an iteration raises. -/
lemma iter_events_none (a : Args) (hs : selected_strategy a = none)
    (it : Nat) :
    iter_events a it = none := by
  unfold iter_events; rw [hs]

/-- With a strategy selected, the loop completes and never records the
fatal no-strategy event. -/
lemma loop_events_ok (a : Args) (hs : selected_strategy a ≠ none) (k : Nat) :
    Event.fatal_no_strategy ∉ (loop_events a k).1 ∧
    (loop_events a k).2 = true := by
  induction k with
  | zero => simp [loop_events]
  | succ k ih =>
      obtain ⟨h1, h2⟩ := ih
      simp only [loop_events, h2, if_true, iter_events_some a hs k]
      simp [List.mem_append, h1]

/-- With no strategy selected, the first loop iteration raises the fatal
error and aborts the remainder of the loop. -/
lemma loop_events_abort (a : Args) (hs : selected_strategy a = none)
    (k : Nat) :
    1 ≤ k → loop_events a k = ([Event.fatal_no_strategy], false) := by
  induction k with
  | zero => intro h; omega
  | succ k ih =>
      intro _
      rcases Nat.eq_zero_or_pos k with h0 | hpos
      · subst h0
        simp [loop_events, iter_events_none a hs]
      · simp only [loop_events, ih hpos]
        simp

/-- The whole-run trace when no strategy is selected and the loop runs at
least once: setup coordination happens first, then the fatal error. -/
lemma main_trace_no_strategy (a : Args) (hs : selected_strategy a = none)
    (hit : 1 ≤ iterations a) :
    mainTrace a = [Event.init_process_group, Event.barrier,
      Event.fatal_no_strategy] := by
  unfold mainTrace
  rw [loop_events_abort a hs (iterations a) hit]
  simp

/-- No strategy is selected exactly when both flags are unset. -/
lemma selected_strategy_none_iff (a : Args) :
    selected_strategy a = none ↔
      a.p_sample = false ∧ a.ddim_sample = false := by
  cases hp : a.p_sample <;> cases hd : a.ddim_sample <;>
    simp [selected_strategy, hp, hd]

/-- With a strategy selected the trace never contains the fatal event. -/
lemma main_trace_ok (a : Args) (hs : selected_strategy a ≠ none) :
    Event.fatal_no_strategy ∉ mainTrace a := by
  obtain ⟨h1, h2⟩ := loop_events_ok a hs (iterations a)
  unfold mainTrace
  rw [h2]
  simp [List.mem_append, h1]

/-- C6: if guidance_scale > 1.0, every iteration doubles the prepared
batch — the noise is concatenated with itself and the real labels with a
same-size null-class (1000) batch — before the sampler is invoked, and the
second (null-class) half of the sampler output is discarded afterwards; if
guidance_scale == 1.0 the batch is never doubled and no discard step is
performed. -/
theorem guidance_doubling {α : Type} (a : Args) (z0 : List α)
    (hz : z0.length = a.per_proc_batch_size) :
    (a.cfg_scale > 1 →
      prepared_z a z0 = z0 ++ z0 ∧
      (prepared_z a z0).length = 2 * a.per_proc_batch_size ∧
      (∀ y0 : List Int, prepared_y a y0 =
        y0 ++ List.replicate a.per_proc_batch_size 1000) ∧
      (∀ samples : List α, samples.length = 2 * a.per_proc_batch_size →
        postprocess a samples = samples.take a.per_proc_batch_size)) ∧
    (a.cfg_scale = 1 →
      prepared_z a z0 = z0 ∧
      (∀ y0 : List Int, prepared_y a y0 = y0) ∧
      (∀ samples : List α, postprocess a samples = samples)) := by
  constructor
  · intro hcfg
    have hu : using_cfg a = true := by
      unfold using_cfg
      exact decide_eq_true hcfg
    refine ⟨?_, ?_, ?_, ?_⟩
    · simp [prepared_z, hu]
    · simp only [prepared_z, hu, if_true, List.length_append, hz]
      omega
    · intro y0
      simp [prepared_y, hu]
    · intro samples hlen
      have hps : postprocess a samples =
          samples.take ((samples.length + 1) / 2) := by
        simp [postprocess, hu]
      rw [hps, hlen]
      congr 1
      omega
  · intro hcfg
    have hu : using_cfg a = false := by
      unfold using_cfg
      rw [hcfg]
      simp
    exact ⟨by simp [prepared_z, hu], fun y0 => by simp [prepared_y, hu],
      fun s => by simp [postprocess, hu]⟩

/-- Witness for `guidance_doubling`: with guidance (cfg_scale = 3/2,
batch 2) the noise doubles, the labels gain two null entries and the
output halves; without guidance (cfg_scale = 1) nothing changes. -/
theorem guidance_doubling_witness :
    prepared_z guidanceCfg [10, 20] = [10, 20, 10, 20] ∧
    prepared_y guidanceCfg [5, 7] = [5, 7, 1000, 1000] ∧
    postprocess guidanceCfg [1, 2, 3, 4] = [1, 2] ∧
    prepared_z smallCfg [10, 20] = [10, 20] ∧
    postprocess smallCfg [1, 2, 3, 4] = [1, 2, 3, 4] := by
  obtain ⟨hg, -⟩ :=
    guidance_doubling guidanceCfg ([10, 20] : List Nat) (by decide)
  obtain ⟨hz1, -, hy1, hpost1⟩ := hg (by norm_num [guidanceCfg])
  obtain ⟨-, hng⟩ :=
    guidance_doubling smallCfg ([10, 20] : List Nat) (by decide)
  obtain ⟨hz2, -, hpost2⟩ := hng rfl
  refine ⟨hz1, ?_, ?_, hz2, hpost2 [1, 2, 3, 4]⟩
  · rw [hy1 [5, 7]]
    decide
  · rw [hpost1 [1, 2, 3, 4] (by decide)]
    decide

/-- C7 counterexample: with no strategy selected and one planned
iteration, the fatal no-strategy error is only the third trace event —
after `init_process_group` and the setup barrier — so it is not surfaced
before coordination occurs. -/
theorem no_strategy_error_after_coordination :
    mainTrace noStrategyCfg =
      [Event.init_process_group, Event.barrier,
        Event.fatal_no_strategy] ∧
    (mainTrace noStrategyCfg)[0]? = some Event.init_process_group ∧
    (mainTrace noStrategyCfg)[1]? = some Event.barrier ∧
    (mainTrace noStrategyCfg)[2]? = some Event.fatal_no_strategy := by
  decide

/-- C7 (amended): if neither sampling strategy is selected and at least
one iteration is planned, the run fails with the fatal
NotImplementedError — raised inside the first sampling-loop iteration,
after process-group initialization and the setup barrier, not at startup
before coordination. -/
theorem no_strategy_fatal (a : Args)
    (hp : a.p_sample = false) (hd : a.ddim_sample = false)
    (hit : 1 ≤ iterations a) :
    mainTrace a = [Event.init_process_group, Event.barrier,
      Event.fatal_no_strategy] := by
  apply main_trace_no_strategy a _ hit
  exact (selected_strategy_none_iff a).2 ⟨hp, hd⟩

/-- Witness for `no_strategy_fatal` on the two-worker no-strategy
configuration. -/
theorem no_strategy_fatal_witness :
    mainTrace noStrategyCfg2 = [Event.init_process_group, Event.barrier,
      Event.fatal_no_strategy] :=
  no_strategy_fatal noStrategyCfg2 (by decide) (by decide) (by decide)

/-- C9: whenever the step-subsampled (ddim) strategy is dispatched, the
sampler is invoked with the guidance-capable entry point
`model.forward_with_cfg`, regardless of guidance_scale; the plain
`model.forward` is never what the ddim sampler receives. -/
theorem ddim_entry_point (a : Args)
    (hs : selected_strategy a = some Strategy.ddim_sample_loop) :
    invoked_model_fn a = some ModelFn.forward_with_cfg ∧
    invoked_model_fn a ≠ some ModelFn.forward := by
  unfold invoked_model_fn
  rw [hs]
  exact ⟨rfl, by simp⟩

/-- Witness for `ddim_entry_point`: a ddim run with guidance off
(cfg_scale = 1) still hands `forward_with_cfg` to the sampler even though
`sample_fn` is the plain `forward`. -/
theorem ddim_entry_point_witness :
    invoked_model_fn ddimNoGuidanceCfg = some ModelFn.forward_with_cfg ∧
    invoked_model_fn ddimNoGuidanceCfg ≠ some ModelFn.forward ∧
    sample_fn ddimNoGuidanceCfg = ModelFn.forward :=
  ⟨(ddim_entry_point ddimNoGuidanceCfg (by decide)).1,
    (ddim_entry_point ddimNoGuidanceCfg (by decide)).2,
    by simp [sample_fn, using_cfg, ddimNoGuidanceCfg]⟩

/-- C10 counterexample: with neither flag set but zero requested samples,
the loop body never runs, so no fatal no-strategy error is ever raised —
the "raised iff neither flag is set" equivalence fails as stated. -/
theorem no_error_when_zero_iterations :
    zeroIterCfg.p_sample = false ∧ zeroIterCfg.ddim_sample = false ∧
    Event.fatal_no_strategy ∉ mainTrace zeroIterCfg := by decide

/-- C10 (amended): if both sampling strategies are selected no error is
raised — the iterative-refinement (p_sample) strategy takes precedence and
ddim is silently ignored; the fatal no-strategy error occurs in a run iff
neither flag is set and at least one iteration is planned. -/
theorem strategy_precedence (a : Args) :
    (a.p_sample = true →
      selected_strategy a = some Strategy.p_sample_loop ∧
      Event.fatal_no_strategy ∉ mainTrace a) ∧
    (Event.fatal_no_strategy ∈ mainTrace a ↔
      a.p_sample = false ∧ a.ddim_sample = false ∧ 1 ≤ iterations a) := by
  constructor
  · intro hp
    have hsel : selected_strategy a = some Strategy.p_sample_loop := by
      simp [selected_strategy, hp]
    refine ⟨hsel, main_trace_ok a ?_⟩
    rw [hsel]
    simp
  · constructor
    · intro hmem
      by_cases hs : selected_strategy a = none
      · obtain ⟨hp, hd⟩ := (selected_strategy_none_iff a).1 hs
        refine ⟨hp, hd, ?_⟩
        by_contra hz
        have h0 : iterations a = 0 := by omega
        unfold mainTrace at hmem
        rw [h0] at hmem
        simp [loop_events] at hmem
      · exact absurd hmem (main_trace_ok a hs)
    · rintro ⟨hp, hd, hit⟩
      rw [main_trace_no_strategy a
        ((selected_strategy_none_iff a).2 ⟨hp, hd⟩) hit]
      simp

/-- Witness for `strategy_precedence` on the both-flags configuration:
p_sample wins and the run records no fatal event. -/
theorem strategy_precedence_witness :
    selected_strategy bothStrategiesCfg = some Strategy.p_sample_loop ∧
    Event.fatal_no_strategy ∉ mainTrace bothStrategiesCfg :=
  (strategy_precedence bothStrategiesCfg).1 (by decide)
